import Mathlib

/-!
Verification of the daily-vc-chat relay: a shallow embedding of the
server-side history buffer and broadcast fan-out (src/unnamed/part_000),
the shared wire types (src/types.ts), and the client-side reducer,
grouping algorithm and reconnect backoff (src/unnamed/part_001).
JS arrays become `List`, JS numbers used as timestamps become `Int`,
counters become `Nat`, and `Math.random()` becomes an explicit rational
parameter in [0, 1).
-/

/-- Platform tag, from the `platform` field of the wire types. -/
inductive Platform
  | youtube
  | discord
deriving DecidableEq

/-- Author record, from the `author` field of YouTubeMessage / DiscordMessage. -/
structure Author where
  name : String
  avatar : String
deriving DecidableEq

/-- A chat message, the union of YouTubeMessage and DiscordMessage from
src/types.ts.  JS objects are dynamic, so the optional Discord-only fields
(`attachments`, `edited`) are carried by every message with defaults,
matching what the spread `{ ...message, content, edited: true }` produces. -/
structure ChatMessage where
  platform : Platform
  id : String
  timestamp : Int
  author : Author
  content : String
  attachments : List String := []
  edited : Bool := false
deriving DecidableEq

/-- DiscordEditedMessage from src/types.ts (the `edit` wire event). -/
structure EditEvent where
  platform : Platform := Platform.discord
  id : String
  timestamp : Int
  content : String
deriving DecidableEq

/-- DeletedMessage from src/types.ts (the `delete` wire event). -/
structure DeleteEvent where
  platform : Platform
  id : String
deriving DecidableEq

/-- The tagged union `Message` of src/types.ts: everything the server can
put on the wire. -/
inductive WireEvent
  | message (m : ChatMessage)
  | edit (e : EditEvent)
  | delete (d : DeleteEvent)
  | history (messages : List ChatMessage)
deriving DecidableEq

/-! Server: history buffer (src/unnamed/part_000, lines 11-36). -/

/-- MAX_BUFFER_SIZE constant from the server. -/
def MAX_BUFFER_SIZE : Nat := 100

/-- The server's `addToBuffer`: push, then `splice(0, length - MAX_BUFFER_SIZE)`
when over capacity, i.e. drop from the head down to capacity. -/
def addToBuffer (buf : List ChatMessage) (m : ChatMessage) : List ChatMessage :=
  let pushed := buf ++ [m]
  if MAX_BUFFER_SIZE < pushed.length then
    pushed.drop (pushed.length - MAX_BUFFER_SIZE)
  else
    pushed

/-- The server's `removeFromBuffer`: keeps every message whose `id` differs.
Note the platform is not consulted. -/
def removeFromBuffer (id : String) (buf : List ChatMessage) : List ChatMessage :=
  buf.filter (fun m => !(m.id == id))

/-- The server's `editInBuffer`: rewrites every message whose `id` matches,
replacing the content and setting the edited flag.  The platform is not
consulted. -/
def editInBuffer (id content : String) (buf : List ChatMessage) : List ChatMessage :=
  buf.map (fun m =>
    if m.id == id then { m with content := content, edited := true } else m)

/-- Suffix of the last `n` elements, the shape `addToBuffer` normalizes to. -/
def lastN (n : Nat) (l : List ChatMessage) : List ChatMessage :=
  l.drop (l.length - n)

theorem lastN_of_le {n : Nat} {l : List ChatMessage} (h : l.length ≤ n) :
    lastN n l = l := by
  unfold lastN
  have : l.length - n = 0 := by omega
  simp [this]

theorem addToBuffer_eq_lastN (buf : List ChatMessage) (m : ChatMessage) :
    addToBuffer buf m = lastN MAX_BUFFER_SIZE (buf ++ [m]) := by
  unfold addToBuffer lastN
  simp only []
  split
  · rfl
  · next h =>
    have h0 : (buf ++ [m]).length - MAX_BUFFER_SIZE = 0 := by
      simp only [List.length_append, List.length_singleton] at h ⊢
      omega
    rw [h0, List.drop_zero]

theorem lastN_append_left {n : Nat} (s t : List ChatMessage) (h : n ≤ t.length) :
    lastN n (s ++ t) = lastN n t := by
  unfold lastN
  rw [List.drop_append_eq_append_drop]
  have h1 : s.length ≤ (s ++ t).length - n := by simp; omega
  have h2 : (s ++ t).length - n - s.length = t.length - n := by simp; omega
  rw [List.drop_eq_nil_of_le h1, h2, List.nil_append]

theorem lastN_lastN_append (n : Nat) (l ms : List ChatMessage) :
    lastN n (lastN n l ++ ms) = lastN n (l ++ ms) := by
  by_cases h : l.length ≤ n
  · rw [lastN_of_le h]
  · have hsplit : l.take (l.length - n) ++ lastN n l = l := List.take_append_drop _ l
    have hlen : n ≤ (lastN n l ++ ms).length := by
      unfold lastN
      simp
      omega
    calc lastN n (lastN n l ++ ms)
        = lastN n (l.take (l.length - n) ++ (lastN n l ++ ms)) :=
          (lastN_append_left _ _ hlen).symm
      _ = lastN n (l ++ ms) := by rw [← List.append_assoc, hsplit]

theorem foldl_addToBuffer (msgs : List ChatMessage) :
    ∀ buf : List ChatMessage, buf.length ≤ MAX_BUFFER_SIZE →
      List.foldl addToBuffer buf msgs = lastN MAX_BUFFER_SIZE (buf ++ msgs) := by
  induction msgs with
  | nil =>
    intro buf h
    simpa using (lastN_of_le (by simpa using h)).symm
  | cons m ms ih =>
    intro buf h
    have hstep : addToBuffer buf m = lastN MAX_BUFFER_SIZE (buf ++ [m]) :=
      addToBuffer_eq_lastN buf m
    have hlen : (addToBuffer buf m).length ≤ MAX_BUFFER_SIZE := by
      rw [hstep]
      unfold lastN
      simp
      omega
    calc List.foldl addToBuffer buf (m :: ms)
        = List.foldl addToBuffer (addToBuffer buf m) ms := rfl
      _ = lastN MAX_BUFFER_SIZE (addToBuffer buf m ++ ms) := ih _ hlen
      _ = lastN MAX_BUFFER_SIZE (lastN MAX_BUFFER_SIZE (buf ++ [m]) ++ ms) := by
          rw [hstep]
      _ = lastN MAX_BUFFER_SIZE ((buf ++ [m]) ++ ms) := lastN_lastN_append _ _ _
      _ = lastN MAX_BUFFER_SIZE (buf ++ m :: ms) := by
          rw [List.append_assoc]
          rfl

/-- Claim C1: replaying any sequence of appends through the server's
`addToBuffer` leaves exactly the most recent `MAX_BUFFER_SIZE` (100)
messages, in arrival order: the result is `msgs.drop (msgs.length - 100)`
(all of `msgs` when there are at most 100) and its length is
`min msgs.length 100` (exactly 100 once more than 100 arrived). -/
theorem addToBuffer_keeps_last_100 (msgs : List ChatMessage) :
    List.foldl addToBuffer [] msgs = msgs.drop (msgs.length - MAX_BUFFER_SIZE) ∧
    (List.foldl addToBuffer [] msgs).length = min msgs.length MAX_BUFFER_SIZE := by
  have h := foldl_addToBuffer msgs [] (by simp)
  simp only [List.nil_append] at h
  constructor
  · exact h
  · rw [h]
    unfold lastN
    simp
    omega

/-! Concrete fixtures used in counterexamples and witnesses. -/

/-- A YouTube message with id "a". -/
def ytA : ChatMessage :=
  { platform := Platform.youtube, id := "a", timestamp := 0,
    author := { name := "ned", avatar := "av1" }, content := "hi" }

/-- A Discord message sharing id "a" with `ytA` but on the other platform. -/
def dcA : ChatMessage :=
  { platform := Platform.discord, id := "a", timestamp := 1,
    author := { name := "mia", avatar := "av2" }, content := "hello" }

/-- The Discord edit event the messageUpdate handler emits for id "a". -/
def e0 : EditEvent :=
  { platform := Platform.discord, id := "a", timestamp := 2, content := "x" }

/-- The Discord delete event the messageDelete handler emits for id "a". -/
def d0 : DeleteEvent := { platform := Platform.discord, id := "a" }

/-- Claim C2 counterexample: with a YouTube and a Discord message both
carrying id "a", the claim predicts that a Discord-originated remove leaves
the YouTube entry untouched (`[ytA]`) and that a Discord-originated edit
rewrites only the Discord entry.  The code keys both operations on `id`
alone: the remove empties the buffer and the edit rewrites the YouTube
entry as well. -/
theorem buffer_ops_ignore_platform :
    removeFromBuffer "a" [ytA, dcA] = [] ∧
    removeFromBuffer "a" [ytA, dcA] ≠ [ytA] ∧
    editInBuffer "a" "x" [ytA, dcA] =
      [{ ytA with content := "x", edited := true },
       { dcA with content := "x", edited := true }] ∧
    editInBuffer "a" "x" [ytA, dcA] ≠
      [ytA, { dcA with content := "x", edited := true }] := by
  refine ⟨rfl, by decide, rfl, by decide⟩

/-- Claim C2 amended: the server's edit and remove target by `id` alone,
ignoring the platform.  `removeFromBuffer` returns the sublist of entries
whose id differs (so it deletes every entry with the id, across platforms),
`editInBuffer` rewrites, position by position, exactly the entries whose id
matches (setting content and the edited flag, across platforms), and when
no entry carries the id both operations are silent no-ops. -/
theorem buffer_ops_target_by_id (id c : String) (buf : List ChatMessage) :
    (removeFromBuffer id buf).Sublist buf ∧
    (∀ m : ChatMessage, m ∈ removeFromBuffer id buf ↔ m ∈ buf ∧ m.id ≠ id) ∧
    (∀ i : Nat, (editInBuffer id c buf)[i]? =
      (buf[i]?).map (fun m =>
        if m.id = id then { m with content := c, edited := true } else m)) ∧
    ((∀ m ∈ buf, m.id ≠ id) →
      removeFromBuffer id buf = buf ∧ editInBuffer id c buf = buf) := by
  refine ⟨List.filter_sublist buf, ?_, ?_, ?_⟩
  · intro m
    simp [removeFromBuffer]
  · intro i
    unfold editInBuffer
    rw [List.getElem?_map]
    cases buf[i]? with
    | none => rfl
    | some m => simp
  · intro hnone
    constructor
    · unfold removeFromBuffer
      rw [List.filter_eq_self]
      intro m hm
      simpa using hnone m hm
    · unfold editInBuffer
      have : ∀ m ∈ buf,
          (if m.id == id then { m with content := c, edited := true } else m) = m := by
        intro m hm
        have := hnone m hm
        simp [this]
      rw [List.map_congr_left this]
      simp

/-- Witness for the amended C2 theorem at a concrete no-match input. -/
theorem buffer_ops_target_by_id_witness :
    (∀ m ∈ [ytA], m.id ≠ "z") ∧
    (removeFromBuffer "z" [ytA] = [ytA] ∧ editInBuffer "z" "x" [ytA] = [ytA]) :=
  ⟨by decide, (buffer_ops_target_by_id "z" "x" [ytA]).2.2.2 (by decide)⟩

/-! Server: handler step order (src/unnamed/part_000, lines 38-41, 74-99).
Each event handler is a straight-line sequence of buffer mutations and
fan-out sends; the step lists below transcribe the statement order. -/

/-- One observable server action: a buffer mutation or a fan-out send. -/
inductive ServerStep
  | appendBuf (m : ChatMessage)
  | editBuf (id content : String)
  | removeBuf (id : String)
  | sendAll (payload : WireEvent)
deriving DecidableEq

/-- The server's `broadcastChatMessage`: `addToBuffer` then `broadcastMessage`. -/
def broadcastChatMessageSteps (m : ChatMessage) : List ServerStep :=
  [ServerStep.appendBuf m, ServerStep.sendAll (WireEvent.message m)]

/-- The Discord `messageUpdate` handler: `broadcastMessage` of the edit
event first, `editInBuffer` after. -/
def messageUpdateSteps (e : EditEvent) : List ServerStep :=
  [ServerStep.sendAll (WireEvent.edit e), ServerStep.editBuf e.id e.content]

/-- The Discord `messageDelete` handler (and the YouTube
`markChatItemAsDeletedAction` branch, which has the same shape):
`broadcastMessage` of the delete event first, `removeFromBuffer` after. -/
def messageDeleteSteps (d : DeleteEvent) : List ServerStep :=
  [ServerStep.sendAll (WireEvent.delete d), ServerStep.removeBuf d.id]

/-- Effect of one server step on the history buffer. -/
def applyStep (buf : List ChatMessage) : ServerStep → List ChatMessage
  | ServerStep.appendBuf m => addToBuffer buf m
  | ServerStep.editBuf id c => editInBuffer id c buf
  | ServerStep.removeBuf id => removeFromBuffer id buf
  | ServerStep.sendAll _ => buf

/-- Buffer state after running a sequence of server steps. -/
def runSteps (buf : List ChatMessage) (steps : List ServerStep) : List ChatMessage :=
  steps.foldl applyStep buf

/-- Whether a step mutates the buffer (rather than fanning out). -/
def isMutation : ServerStep → Bool
  | ServerStep.sendAll _ => false
  | _ => true

/-- Whether, in a handler's step list, the buffer mutation comes before the
fan-out send. -/
def mutationBeforeSend (steps : List ServerStep) : Bool :=
  steps.findIdx isMutation < steps.findIdx (fun s => !(isMutation s))

/-- Claim C3 counterexample: for the edit and delete handlers the fan-out
precedes the buffer mutation.  At the concrete edit event `e0`, after the
prefix of the handler ending at the send (its first step), the buffer still
holds the unedited `dcA`, so a connection whose join snapshot is taken at
that point does not yet see the edit. -/
theorem edit_delete_fanout_before_mutation :
    mutationBeforeSend (messageUpdateSteps e0) = false ∧
    mutationBeforeSend (messageDeleteSteps d0) = false ∧
    runSteps [dcA] ((messageUpdateSteps e0).take 1) = [dcA] ∧
    ({ dcA with content := "x", edited := true }) ≠ dcA := by
  refine ⟨rfl, rfl, rfl, by decide⟩

/-- Claim C3 amended: only `Message` events mutate the buffer before the
fan-out; the edit and delete handlers send first and mutate immediately
after.  Both steps still sit in one straight-line handler, so by the time
the handler returns the buffer has absorbed the event: running a full
handler step list equals applying the corresponding buffer operation. -/
theorem mutation_order_per_handler (m : ChatMessage) (e : EditEvent)
    (d : DeleteEvent) (buf : List ChatMessage) :
    mutationBeforeSend (broadcastChatMessageSteps m) = true ∧
    mutationBeforeSend (messageUpdateSteps e) = false ∧
    mutationBeforeSend (messageDeleteSteps d) = false ∧
    runSteps buf (broadcastChatMessageSteps m) = addToBuffer buf m ∧
    runSteps buf (messageUpdateSteps e) = editInBuffer e.id e.content buf ∧
    runSteps buf (messageDeleteSteps d) = removeFromBuffer d.id buf := by
  refine ⟨rfl, rfl, rfl, rfl, rfl, rfl⟩

/-! Server: broadcast fan-out (src/unnamed/part_000, lines 9, 21-26, 196-212).
Connections are modelled by numeric ids; the `clients` set by a duplicate-free
list.  Bun's `ServerWebSocket.send` reports failure through its numeric
return value and does not raise on a closed socket, so the `forEach` body
runs for every client unconditionally; `broadcastMessage` neither reads a
send's outcome nor touches `clients`. -/

/-- The server's `broadcastMessage` over a membership list: the payload is
serialized once and a send is attempted to every client in order; the
membership list is returned unchanged, as the function never modifies it. -/
def broadcastMessage (clients : List Nat) (payload : WireEvent) :
    List (Nat × WireEvent) × List Nat :=
  (clients.map (fun c => (c, payload)), clients)

/-- The websocket `close` handler: `clients.delete(ws)`. -/
def wsClose (clients : List Nat) (c : Nat) : List Nat :=
  clients.erase c

/-- Claim C4 counterexample: with three registered connections of which
connection 2 is the failing one, the fan-out does attempt delivery to
connections 1 and 3 (first conjunct), but connection 2 is still a member
afterwards — the fan-out leaves the membership list untouched instead of
removing the failing connection. -/
theorem failing_client_stays_member :
    (broadcastMessage [1, 2, 3] (WireEvent.message dcA)).1 =
      [(1, WireEvent.message dcA), (2, WireEvent.message dcA),
       (3, WireEvent.message dcA)] ∧
    (broadcastMessage [1, 2, 3] (WireEvent.message dcA)).2 = [1, 2, 3] ∧
    2 ∈ (broadcastMessage [1, 2, 3] (WireEvent.message dcA)).2 := by
  refine ⟨rfl, rfl, by decide⟩

/-- Claim C4 amended: a failing recipient cannot prevent delivery to the
others — a send is attempted to every joined connection and a send failure
does not raise — but the fan-out itself leaves the membership set
unchanged; a dead connection leaves the set only when its close event
fires, which is when `wsClose` removes it. -/
theorem fanout_isolated_membership_unchanged (clients : List Nat)
    (payload : WireEvent) (c : Nat) (hmem : c ∈ clients)
    (hnd : clients.Nodup) :
    (c, payload) ∈ (broadcastMessage clients payload).1 ∧
    (broadcastMessage clients payload).2 = clients ∧
    c ∉ wsClose clients c := by
  refine ⟨?_, rfl, ?_⟩
  · unfold broadcastMessage
    simp only [List.mem_map]
    exact ⟨c, hmem, rfl⟩
  · unfold wsClose
    exact hnd.not_mem_erase

/-- Witness for the amended C4 theorem: three members, the middle one. -/
theorem fanout_isolated_membership_unchanged_witness :
    2 ∈ [1, 2, 3] ∧ ([1, 2, 3] : List Nat).Nodup ∧
    ((2, WireEvent.message dcA) ∈
        (broadcastMessage [1, 2, 3] (WireEvent.message dcA)).1 ∧
      (broadcastMessage [1, 2, 3] (WireEvent.message dcA)).2 = [1, 2, 3] ∧
      2 ∉ wsClose [1, 2, 3] 2) :=
  ⟨by decide, by decide,
    fanout_isolated_membership_unchanged [1, 2, 3] (WireEvent.message dcA) 2
      (by decide) (by decide)⟩

/-! Client: connection manager (src/unnamed/part_001, lines 123-225).
The `useChatSocket` hook keeps two counters: the React state `retryCount`
(display) and the ref `retryRef` (drives the backoff).  `ws.onopen` sets
the state to 0 but never resets the ref; `ws.onclose` increments the ref,
copies it into the state and schedules `connect` after
`min(5000, 500 * retryRef.current) + Math.random() * 400` milliseconds. -/

/-- Connection state of the client hook. -/
inductive ConnState
  | connecting
  | connected
  | disconnected
deriving DecidableEq

/-- Counters and state held by `useChatSocket`. -/
structure SocketState where
  retryRef : Nat
  retryCount : Nat
  connState : ConnState
deriving DecidableEq

/-- Physical connection events delivered to the hook's handlers. -/
inductive SockEvent
  | opened
  | closed
deriving DecidableEq

/-- Base reconnect delay from `ws.onclose`: `Math.min(5000, 500 * n)`. -/
def baseDelay (n : Nat) : Nat := min 5000 (500 * n)

/-- Jitter from `ws.onclose`: `Math.random() * 400`, with the random draw
`r ∈ [0, 1)` made an explicit rational parameter. -/
def jitter (r : ℚ) : ℚ := r * 400

/-- Total scheduled reconnect delay for retry count `n` and random draw `r`. -/
def scheduledDelay (n : Nat) (r : ℚ) : ℚ := (baseDelay n : ℚ) + jitter r

/-- One step of the hook's handlers: `onopen` marks connected and resets
only the `retryCount` state; `onclose` increments `retryRef`, copies it to
the state, marks disconnected and schedules a reconnect with base delay
`baseDelay retryRef`.  The returned option is the base delay scheduled by
this event, if any. -/
def stepSocket (s : SocketState) : SockEvent → SocketState × Option Nat
  | SockEvent.opened =>
    ({ s with connState := ConnState.connected, retryCount := 0 }, none)
  | SockEvent.closed =>
    let r := s.retryRef + 1
    ({ retryRef := r, retryCount := r, connState := ConnState.disconnected },
      some (baseDelay r))

/-- State of the hook before the first connection attempt resolves. -/
def initialSocket : SocketState :=
  { retryRef := 0, retryCount := 0, connState := ConnState.connecting }

/-- Folds a sequence of connection events, keeping the last scheduled base
delay. -/
def runSocket (s : SocketState) (evs : List SockEvent) : SocketState × Option Nat :=
  evs.foldl (fun acc e => stepSocket acc.1 e) (s, none)

/-- Claim C5 is right and the code wrong: after three failed attempts, one
success and one disconnect, the claim says the backoff restarts from
retryCount 1 (base 500 ms), but the code schedules base 2000 ms because
`ws.onopen` resets only the `retryCount` display state (third conjunct)
while `retryRef`, which the backoff reads, is never reset. -/
theorem open_does_not_reset_backoff_counter :
    (runSocket initialSocket
      [SockEvent.closed, SockEvent.closed, SockEvent.closed,
       SockEvent.opened, SockEvent.closed]).2 = some 2000 ∧
    (2000 : Nat) ≠ 500 ∧
    (stepSocket initialSocket SockEvent.opened).1.retryCount = 0 := by
  refine ⟨rfl, by decide, rfl⟩

/-- Claim C6: the close handler schedules exactly the base delay
`min(5000, 500 × n)` for the retry count `n` it just reached — linear at
500 ms per retry up to the 5000 ms cap (hit from n = 10 on) — plus a
jitter of `r × 400 ∈ [0, 400)` for the uniform draw `r ∈ [0, 1)`. -/
theorem backoff_capped_linear_with_jitter (n : Nat) (hn : 1 ≤ n) (r : ℚ)
    (h0 : 0 ≤ r) (h1 : r < 1) (s : SocketState) (hs : s.retryRef + 1 = n) :
    (stepSocket s SockEvent.closed).2 = some (baseDelay n) ∧
    baseDelay n = min 5000 (500 * n) ∧
    (n ≤ 10 → baseDelay n = 500 * n) ∧
    (10 ≤ n → baseDelay n = 5000) ∧
    scheduledDelay n r = (baseDelay n : ℚ) + jitter r ∧
    0 ≤ jitter r ∧ jitter r < 400 := by
  refine ⟨by rw [← hs]; rfl, rfl, ?_, ?_, rfl, ?_, ?_⟩
  · intro h
    unfold baseDelay
    omega
  · intro h
    unfold baseDelay
    omega
  · unfold jitter
    positivity
  · unfold jitter
    calc r * 400 < 1 * 400 := by
          apply mul_lt_mul_of_pos_right h1
          norm_num
      _ = 400 := by norm_num

/-- Witness for C6 at retry count 7 with random draw one half. -/
theorem backoff_capped_linear_with_jitter_witness :
    1 ≤ 7 ∧ (0 : ℚ) ≤ 1 / 2 ∧ (1 / 2 : ℚ) < 1 ∧
    (SocketState.mk 6 6 ConnState.connected).retryRef + 1 = 7 ∧
    ((stepSocket (SocketState.mk 6 6 ConnState.connected) SockEvent.closed).2 =
        some (baseDelay 7) ∧
      baseDelay 7 = min 5000 (500 * 7) ∧
      (7 ≤ 10 → baseDelay 7 = 500 * 7) ∧
      (10 ≤ 7 → baseDelay 7 = 5000) ∧
      scheduledDelay 7 (1 / 2) = (baseDelay 7 : ℚ) + jitter (1 / 2) ∧
      0 ≤ jitter (1 / 2) ∧ jitter (1 / 2) < 400) :=
  ⟨by norm_num, by norm_num, by norm_num, rfl,
    backoff_capped_linear_with_jitter 7 (by norm_num) (1 / 2) (by norm_num)
      (by norm_num) (SocketState.mk 6 6 ConnState.connected) rfl⟩

/-! Client: reconciling reducer (src/unnamed/part_001, lines 21-63). -/

/-- The sort key of the history case: the comparator
`(a, b) => a.timestamp - b.timestamp` orders by ascending timestamp, and
JS `Array.prototype.sort` is stable, as is `List.mergeSort`. -/
def tsLE (a b : ChatMessage) : Bool := a.timestamp ≤ b.timestamp

/-- The reducer's state: the ordered view the UI renders. -/
structure ChatState where
  messages : List ChatMessage
deriving DecidableEq

/-- The reducer's action union (`ChatAction` in the source). -/
inductive ChatAction
  | history (payload : List ChatMessage)
  | addMessage (payload : ChatMessage)
  | edit (payload : EditEvent)
  | delete (payload : DeleteEvent)
deriving DecidableEq

/-- The client's `chatReducer`: history replaces the view with the payload
sorted by timestamp; add-message appends and keeps the last 100
(`slice(-100)`); edit rewrites every entry whose `id` matches (platform not
consulted); delete removes every entry matching both platform and `id`. -/
def chatReducer (state : ChatState) : ChatAction → ChatState
  | ChatAction.history payload => { messages := payload.mergeSort tsLE }
  | ChatAction.addMessage payload =>
    let next := state.messages ++ [payload]
    { messages := next.drop (next.length - 100) }
  | ChatAction.edit payload =>
    { messages := state.messages.map (fun m =>
        if m.id == payload.id
        then { m with content := payload.content, edited := true }
        else m) }
  | ChatAction.delete payload =>
    { messages := state.messages.filter (fun m =>
        !(m.platform == payload.platform && m.id == payload.id)) }

theorem tsLE_trans (a b c : ChatMessage) (hab : tsLE a b = true)
    (hbc : tsLE b c = true) : tsLE a c = true := by
  simp only [tsLE, decide_eq_true_eq] at *
  omega

theorem tsLE_total (a b : ChatMessage) : (tsLE a b || tsLE b a) = true := by
  simp only [tsLE, Bool.or_eq_true, decide_eq_true_eq]
  omega

/-- Claim C7: folding the reducer over a history event carrying one message
`m` and then an edit event for `m.id` with content "x" yields the view
holding exactly the edited `m` — content "x", edited flag set; and a
history event, whatever the current state, replaces the whole view with
its payload reordered (a permutation) ascending by timestamp. -/
theorem reducer_history_then_edit (s : ChatState) (m : ChatMessage)
    (e : EditEvent) (hid : e.id = m.id) (hc : e.content = "x") :
    (chatReducer (chatReducer s (ChatAction.history [m]))
        (ChatAction.edit e)).messages =
      [{ m with content := "x", edited := true }] ∧
    ∀ (t : ChatState) (p : List ChatMessage),
      (chatReducer t (ChatAction.history p)).messages.Perm p ∧
      List.Pairwise (fun a b : ChatMessage => a.timestamp ≤ b.timestamp)
        (chatReducer t (ChatAction.history p)).messages := by
  constructor
  · simp only [chatReducer, List.mergeSort]
    rw [hid, hc]
    simp
  · intro t p
    constructor
    · exact List.mergeSort_perm p tsLE
    · have h := List.sorted_mergeSort tsLE_trans tsLE_total p
      exact h.imp (fun hab => by simpa [tsLE] using hab)

/-- Witness for C7 at the concrete Discord message `dcA` and edit `e0`. -/
theorem reducer_history_then_edit_witness :
    e0.id = dcA.id ∧ e0.content = "x" ∧
    (chatReducer (chatReducer { messages := [] } (ChatAction.history [dcA]))
        (ChatAction.edit e0)).messages =
      [{ dcA with content := "x", edited := true }] :=
  ⟨rfl, rfl,
    (reducer_history_then_edit { messages := [] } dcA e0 rfl rfl).1⟩

/-- Well-formedness of an incoming event: a history payload is a server
snapshot, which the buffer bound (claim C1) keeps at 100 entries or fewer;
the other events carry no view. -/
def actionWellFormed : ChatAction → Prop
  | ChatAction.history payload => payload.length ≤ 100
  | _ => True

/-- Claim C9: every reducer step preserves the 100-entry cap of the client
view — from a view of at most 100 messages, any well-formed history,
message, edit or delete event yields a view of at most 100 messages. -/
theorem reducer_preserves_view_cap (s : ChatState) (a : ChatAction)
    (hs : s.messages.length ≤ 100) (ha : actionWellFormed a) :
    (chatReducer s a).messages.length ≤ 100 := by
  cases a with
  | history p =>
    have hp : p.length ≤ 100 := ha
    have := (List.mergeSort_perm p tsLE).length_eq
    simp only [chatReducer]
    omega
  | addMessage m =>
    simp only [chatReducer, List.length_drop, List.length_append]
    omega
  | edit e =>
    simp only [chatReducer, List.length_map]
    exact hs
  | delete d =>
    simp only [chatReducer]
    calc (s.messages.filter _).length ≤ s.messages.length :=
          List.length_filter_le _ _
      _ ≤ 100 := hs

/-- Witness for C9: the empty view accepting a message event. -/
theorem reducer_preserves_view_cap_witness :
    (ChatState.mk []).messages.length ≤ 100 ∧
    actionWellFormed (ChatAction.addMessage dcA) ∧
    (chatReducer (ChatState.mk []) (ChatAction.addMessage dcA)).messages.length
      ≤ 100 :=
  ⟨by decide, trivial,
    reducer_preserves_view_cap (ChatState.mk []) (ChatAction.addMessage dcA)
      (by decide) trivial⟩

/-! Client: grouping algorithm (src/unnamed/part_001, lines 65-113).
In the source a freshly created group is pushed into `groups` at once and
later mutated through the `current` alias; here the accumulator keeps the
groups already closed plus the current group, and `flushGroups` appends the
current group at the end, which yields the same final list. -/

/-- GROUP_WINDOW_MS constant: five minutes. -/
def GROUP_WINDOW_MS : Nat := 5 * 60 * 1000

/-- A visual message cluster (`MessageGroup` in the source). -/
structure MessageGroup where
  id : String
  first : ChatMessage
  messages : List ChatMessage
deriving DecidableEq

/-- A fresh group seeded by one message. -/
def newGroup (m : ChatMessage) : MessageGroup :=
  { id := m.id, first := m, messages := [m] }

/-- The `sameAuthor` test of the source, against a given anchor message. -/
def sameAuthor (anchor m : ChatMessage) : Bool :=
  m.platform == anchor.platform && m.author.name == anchor.author.name

/-- The `withinWindow` test of the source: absolute timestamp distance to
the anchor at most GROUP_WINDOW_MS. -/
def withinWindow (anchor m : ChatMessage) : Bool :=
  (anchor.timestamp - m.timestamp).natAbs ≤ GROUP_WINDOW_MS

/-- One iteration of the source's loop: the author test anchors on the
LAST member of the current group (`current.messages[length - 1]`), the
window test on the group's FIRST message; a message finding the current
group memberless is skipped (`continue`, unreachable in fact). -/
def groupStep (st : List MessageGroup × Option MessageGroup) (m : ChatMessage) :
    List MessageGroup × Option MessageGroup :=
  match st.2 with
  | none => (st.1, some (newGroup m))
  | some cur =>
    match cur.messages.getLast? with
    | none => st
    | some last =>
      if sameAuthor last m && withinWindow cur.first m then
        (st.1, some { cur with messages := cur.messages ++ [m] })
      else
        (st.1 ++ [cur], some (newGroup m))

/-- Closes the still-open group at the end of the scan. -/
def flushGroups (st : List MessageGroup × Option MessageGroup) :
    List MessageGroup :=
  match st.2 with
  | none => st.1
  | some cur => st.1 ++ [cur]

/-- The client's `groupMessages`. -/
def groupMessages (messages : List ChatMessage) : List MessageGroup :=
  flushGroups (messages.foldl groupStep ([], none))

/-- Modelled from the spec wording of claim C8, for comparison with the
source's `groupStep`: the author test anchors on the current group's FIRST
message, and a group being present is enough (no memberless guard). -/
def groupStepSpec (st : List MessageGroup × Option MessageGroup)
    (m : ChatMessage) : List MessageGroup × Option MessageGroup :=
  match st.2 with
  | none => (st.1, some (newGroup m))
  | some cur =>
    if sameAuthor cur.first m && withinWindow cur.first m then
      (st.1, some { cur with messages := cur.messages ++ [m] })
    else
      (st.1 ++ [cur], some (newGroup m))

/-- The grouping function as the spec words it. -/
def groupMessagesSpec (messages : List ChatMessage) : List MessageGroup :=
  flushGroups (messages.foldl groupStepSpec ([], none))

/-- Well-formedness of a group: non-empty member list headed by the
recorded first message, all members sharing its platform and author name. -/
def GroupWF (g : MessageGroup) : Prop :=
  g.messages ≠ [] ∧ g.messages.head? = some g.first ∧
  ∀ m ∈ g.messages,
    m.platform = g.first.platform ∧ m.author.name = g.first.author.name

/-- Well-formedness of the scan accumulator. -/
def AccWF (st : List MessageGroup × Option MessageGroup) : Prop :=
  (∀ g ∈ st.1, GroupWF g) ∧ ∀ g, st.2 = some g → GroupWF g

theorem groupWF_newGroup (m : ChatMessage) : GroupWF (newGroup m) := by
  refine ⟨by simp [newGroup], by simp [newGroup], ?_⟩
  intro x hx
  simp only [newGroup, List.mem_singleton] at hx
  subst hx
  exact ⟨rfl, rfl⟩

theorem groupWF_append {g : MessageGroup} (h : GroupWF g) {m : ChatMessage}
    (hp : m.platform = g.first.platform)
    (hn : m.author.name = g.first.author.name) :
    GroupWF { g with messages := g.messages ++ [m] } := by
  obtain ⟨hne, hhead, hall⟩ := h
  refine ⟨by simp, ?_, ?_⟩
  · obtain ⟨a, t, hat⟩ := List.exists_cons_of_ne_nil hne
    simp only [hat, List.cons_append, List.head?_cons] at hhead ⊢
    exact hhead
  · intro x hx
    rcases List.mem_append.mp hx with hx | hx
    · exact hall x hx
    · simp only [List.mem_singleton] at hx
      subst hx
      exact ⟨hp, hn⟩

theorem accWF_init : AccWF ([], none) :=
  ⟨fun g hg => absurd hg (List.not_mem_nil g), fun _ hg => nomatch hg⟩

theorem groupStep_some (gs : List MessageGroup) (cur : MessageGroup)
    (m last : ChatMessage) (h : cur.messages.getLast? = some last) :
    groupStep (gs, some cur) m =
      if sameAuthor last m && withinWindow cur.first m then
        (gs, some { cur with messages := cur.messages ++ [m] })
      else (gs ++ [cur], some (newGroup m)) := by
  have hred : groupStep (gs, some cur) m =
      (match cur.messages.getLast? with
       | none => (gs, some cur)
       | some last =>
         if sameAuthor last m && withinWindow cur.first m then
           (gs, some { cur with messages := cur.messages ++ [m] })
         else (gs ++ [cur], some (newGroup m))) := rfl
  rw [hred, h]

theorem groupStep_noLast (gs : List MessageGroup) (cur : MessageGroup)
    (m : ChatMessage) (h : cur.messages.getLast? = none) :
    groupStep (gs, some cur) m = (gs, some cur) := by
  have hred : groupStep (gs, some cur) m =
      (match cur.messages.getLast? with
       | none => (gs, some cur)
       | some last =>
         if sameAuthor last m && withinWindow cur.first m then
           (gs, some { cur with messages := cur.messages ++ [m] })
         else (gs ++ [cur], some (newGroup m))) := rfl
  rw [hred, h]

theorem groupStepSpec_some (gs : List MessageGroup) (cur : MessageGroup)
    (m : ChatMessage) :
    groupStepSpec (gs, some cur) m =
      if sameAuthor cur.first m && withinWindow cur.first m then
        (gs, some { cur with messages := cur.messages ++ [m] })
      else (gs ++ [cur], some (newGroup m)) := rfl

theorem groupStep_eq_spec (gs : List MessageGroup)
    (cur? : Option MessageGroup) (h : AccWF (gs, cur?)) (m : ChatMessage) :
    groupStep (gs, cur?) m = groupStepSpec (gs, cur?) m := by
  obtain ⟨h1, h2⟩ := h
  cases cur? with
  | none => rfl
  | some cur =>
    obtain ⟨hne, hhead, hall⟩ := h2 cur rfl
    cases hlast : cur.messages.getLast? with
    | none =>
      exact absurd (List.getLast?_eq_none_iff.mp hlast) hne
    | some last =>
      have hmem : last ∈ cur.messages := List.mem_of_mem_getLast? hlast
      have hsame : sameAuthor last m = sameAuthor cur.first m := by
        unfold sameAuthor
        rw [(hall last hmem).1, (hall last hmem).2]
      rw [groupStep_some gs cur m last hlast, groupStepSpec_some gs cur m,
        hsame]

theorem accWF_groupStep (gs : List MessageGroup)
    (cur? : Option MessageGroup) (h : AccWF (gs, cur?)) (m : ChatMessage) :
    AccWF (groupStep (gs, cur?) m) := by
  obtain ⟨h1, h2⟩ := h
  cases cur? with
  | none =>
    refine ⟨h1, fun g hg => ?_⟩
    injection hg with hg
    subst hg
    exact groupWF_newGroup m
  | some cur =>
    have hwf := h2 cur rfl
    cases hlast : cur.messages.getLast? with
    | none =>
      rw [groupStep_noLast gs cur m hlast]
      exact ⟨h1, h2⟩
    | some last =>
      have hmem : last ∈ cur.messages := List.mem_of_mem_getLast? hlast
      rw [groupStep_some gs cur m last hlast]
      by_cases hcond : (sameAuthor last m && withinWindow cur.first m) = true
      · rw [if_pos hcond]
        refine ⟨h1, fun g hg => ?_⟩
        injection hg with hg
        subst hg
        have hs : sameAuthor last m = true := by
          simp only [Bool.and_eq_true] at hcond
          exact hcond.1
        unfold sameAuthor at hs
        simp only [Bool.and_eq_true, beq_iff_eq] at hs
        exact groupWF_append hwf
          (by rw [hs.1]; exact (hwf.2.2 last hmem).1)
          (by rw [hs.2]; exact (hwf.2.2 last hmem).2)
      · rw [if_neg hcond]
        refine ⟨fun g hg => ?_, fun g hg => ?_⟩
        · rcases List.mem_append.mp hg with hg | hg
          · exact h1 g hg
          · simp only [List.mem_singleton] at hg
            subst hg
            exact hwf
        · injection hg with hg
          subst hg
          exact groupWF_newGroup m

/-- Concatenation of everything gathered so far, open group included. -/
def collectAcc (st : List MessageGroup × Option MessageGroup) :
    List ChatMessage :=
  (st.1.map MessageGroup.messages).flatten ++
    (match st.2 with
     | none => []
     | some cur => cur.messages)

theorem collectAcc_groupStep (gs : List MessageGroup)
    (cur? : Option MessageGroup) (h : AccWF (gs, cur?)) (m : ChatMessage) :
    collectAcc (groupStep (gs, cur?) m) = collectAcc (gs, cur?) ++ [m] := by
  obtain ⟨h1, h2⟩ := h
  cases cur? with
  | none => simp [groupStep, collectAcc, newGroup]
  | some cur =>
    obtain ⟨hne, hhead, hall⟩ := h2 cur rfl
    cases hlast : cur.messages.getLast? with
    | none =>
      exact absurd (List.getLast?_eq_none_iff.mp hlast) hne
    | some last =>
      rw [groupStep_some gs cur m last hlast]
      by_cases hcond : (sameAuthor last m && withinWindow cur.first m) = true
      · rw [if_pos hcond]
        simp [collectAcc]
      · rw [if_neg hcond]
        simp [collectAcc, newGroup]

theorem accWF_foldl (l : List ChatMessage) :
    ∀ st, AccWF st → AccWF (l.foldl groupStep st) := by
  induction l with
  | nil => intro st h; exact h
  | cons m ms ih =>
    intro ⟨gs, cur?⟩ h
    exact ih (groupStep (gs, cur?) m) (accWF_groupStep gs cur? h m)

theorem collectAcc_foldl (l : List ChatMessage) :
    ∀ st, AccWF st → collectAcc (l.foldl groupStep st) = collectAcc st ++ l := by
  induction l with
  | nil => intro st h; simp
  | cons m ms ih =>
    intro ⟨gs, cur?⟩ h
    calc collectAcc (List.foldl groupStep (groupStep (gs, cur?) m) ms)
        = collectAcc (groupStep (gs, cur?) m) ++ ms :=
          ih (groupStep (gs, cur?) m) (accWF_groupStep gs cur? h m)
      _ = (collectAcc (gs, cur?) ++ [m]) ++ ms := by
          rw [collectAcc_groupStep gs cur? h m]
      _ = collectAcc (gs, cur?) ++ m :: ms := by
          rw [List.append_assoc]
          rfl

theorem foldl_groupStep_eq_spec (l : List ChatMessage) :
    ∀ st, AccWF st → l.foldl groupStep st = l.foldl groupStepSpec st := by
  induction l with
  | nil => intro st h; rfl
  | cons m ms ih =>
    intro ⟨gs, cur?⟩ h
    have heq := groupStep_eq_spec gs cur? h m
    calc List.foldl groupStep (groupStep (gs, cur?) m) ms
        = List.foldl groupStepSpec (groupStep (gs, cur?) m) ms :=
          ih (groupStep (gs, cur?) m) (accWF_groupStep gs cur? h m)
      _ = List.foldl groupStepSpec (groupStepSpec (gs, cur?) m) ms := by
          rw [heq]

theorem flushGroups_wf (gs : List MessageGroup) (cur? : Option MessageGroup)
    (h : AccWF (gs, cur?)) : ∀ g ∈ flushGroups (gs, cur?), GroupWF g := by
  obtain ⟨h1, h2⟩ := h
  cases cur? with
  | none => exact h1
  | some cur =>
    intro g hg
    rcases List.mem_append.mp hg with hg | hg
    · exact h1 g hg
    · simp only [List.mem_singleton] at hg
      subst hg
      exact h2 _ rfl

theorem flatten_flushGroups (gs : List MessageGroup)
    (cur? : Option MessageGroup) :
    ((flushGroups (gs, cur?)).map MessageGroup.messages).flatten =
      collectAcc (gs, cur?) := by
  cases cur? with
  | none => simp [flushGroups, collectAcc]
  | some cur => simp [flushGroups, collectAcc]

/-- A same-author, same-platform fixture message at time `t`. -/
def atTime (id : String) (t : Int) : ChatMessage :=
  { platform := Platform.discord, id := id, timestamp := t,
    author := { name := "alice", avatar := "av" }, content := "c" }

/-- Claim C8: the scan rule the spec words against the group's first
message computes exactly what the source computes (the source anchors the
author test on the group's last member, but all members of a group share
platform and author name, so the two anchors agree); at the five-minute
boundary, two same-author messages 300,001 ms apart land in two groups and
two messages 299,999 ms apart land in one. -/
theorem grouping_matches_first_anchor_rule (l : List ChatMessage) :
    groupMessages l = groupMessagesSpec l ∧
    (groupMessages [atTime "p" 0, atTime "q" 300001]).length = 2 ∧
    (groupMessages [atTime "p" 0, atTime "q" 299999]).length = 1 := by
  refine ⟨?_, by decide, by decide⟩
  unfold groupMessages groupMessagesSpec
  rw [foldl_groupStep_eq_spec l ([], none) accWF_init]

/-- Claim C10: `groupMessages` returns an order-preserving partition of its
input — every group has a non-empty member list headed by its recorded
first message, and concatenating all member lists in order re-creates the
input exactly. -/
theorem grouping_partitions_input (l : List ChatMessage) :
    (∀ g ∈ groupMessages l,
      g.messages ≠ [] ∧ g.messages.head? = some g.first) ∧
    ((groupMessages l).map MessageGroup.messages).flatten = l := by
  have hwf := accWF_foldl l ([], none) accWF_init
  have hcol := collectAcc_foldl l ([], none) accWF_init
  rcases hfold : l.foldl groupStep ([], none) with ⟨gs, cur?⟩
  rw [hfold] at hwf hcol
  constructor
  · intro g hg
    unfold groupMessages at hg
    rw [hfold] at hg
    have := flushGroups_wf gs cur? hwf g hg
    exact ⟨this.1, this.2.1⟩
  · unfold groupMessages
    rw [hfold, flatten_flushGroups gs cur?, hcol]
    simp [collectAcc]
